import Mathlib

/-!
Verification of the tri-state checkbox propagation component
(src/tristate-checkbox.js, class TristateCheckbox).

The DOM structure the component operates on is a nested list: each li item
holds exactly one checkbox and optionally one nested ul whose li items are
the checkbox's immediate children.  We embed that structure as a tree whose
nodes carry the two observable booleans of a checkbox (checked and
indeterminate) and an ordered list of child nodes; a root container (a top
level ul) is a list of such trees (a Forest).  A node is addressed by the
list of child indices leading to it from the top of its root container, so
structural depth is the length of the address.  Every operation of the
source is translated on this embedding: the parent-state recomputation
(_updateParentState over _findChildCheckboxes), the downward force
(_setChildCheckboxes), the upward walk (_updateAncestorCheckboxes via
_findParentCheckbox, which steps from an li to the li owning the enclosing
ul), the change handler (_createChangeHandler), the bottom-up initialization
(_initializeState, which sorts all ul elements by descending depth), the
constructor with _getElements, and destroy.
-/

namespace Tristate

/-- Observable state of one checkbox: the checked and indeterminate flags of
the underlying input element. -/
structure CB where
  checked : Bool
  indeterminate : Bool
deriving DecidableEq, Repr

/-- Tree of checkboxes: an li item with its own checkbox state and the list
of immediate child items (the li children of its nested ul; the empty list
stands for an li with no nested ul, or with an empty one). -/
inductive Node where
  | mk : CB → List Node → Node

/-- Checkbox state carried by a node. -/
def Node.cb : Node → CB
  | .mk c _ => c

/-- Immediate children of a node. -/
def Node.children : Node → List Node
  | .mk _ cs => cs

/-- Address of a node: the child indices from the top of the root container.
Depth from the root container grows by one per component, so ordering
addresses by length reproduces the document-depth ordering used by
_getElementDepth (document depth of nested uls differs from component count
by a fixed offset per container). -/
abbrev Path := List Nat

/-- Content of one root container: the list of its top level li items. -/
abbrev Forest := List Node

/-- Element lookup by position in a list, mirroring indexed access into the
node lists produced by querySelectorAll. -/
def idx? {α : Type} : List α → Nat → Option α
  | [], _ => none
  | a :: _, 0 => some a
  | _ :: l, i + 1 => idx? l i

/-- Replace the element at one position of a list, leaving the list
unchanged when the position does not exist. -/
def modifyIdx {α : Type} (g : α → α) : Nat → List α → List α
  | _, [] => []
  | 0, a :: l => g a :: l
  | i + 1, a :: l => a :: modifyIdx g i l

/-- Node reached from a node by following a relative address. -/
def Node.getPath : Node → Path → Option Node
  | n, [] => some n
  | .mk _ cs, i :: is =>
    match idx? cs i with
    | none => none
    | some c => c.getPath is

/-- Node of a root container at an address; the empty address names the
container itself, which holds no checkbox. -/
def getF (f : Forest) : Path → Option Node
  | [] => none
  | i :: is =>
    match idx? f i with
    | none => none
    | some n => n.getPath is

/-- Checkbox state at an address. -/
def getCB (f : Forest) (p : Path) : Option CB :=
  (getF f p).map Node.cb

/-- States of the immediate children of the node at an address. -/
def childCBs (f : Forest) (p : Path) : Option (List CB) :=
  (getF f p).map fun n => n.children.map Node.cb

/-- Rewrite the node at a relative address inside a node. -/
def Node.modifyPath (g : Node → Node) : Node → Path → Node
  | n, [] => g n
  | .mk c cs, i :: is => .mk c (modifyIdx (fun m => m.modifyPath g is) i cs)

/-- Rewrite the node at an address of a root container; a container is left
unchanged by an address it does not contain. -/
def modifyF (f : Forest) (p : Path) (g : Node → Node) : Forest :=
  match p with
  | [] => f
  | i :: is => modifyIdx (fun n => n.modifyPath g is) i f

/-- Immediate child checkboxes of a node, translating _findChildCheckboxes
(the :scope > ul then :scope > li > input lookup): exactly the entries of
the node's own child list, grandchildren excluded. -/
def findChildCheckboxes (n : Node) : List Node :=
  n.children

/-- Counting loop of _updateParentState: one pass over the immediate
children accumulating (checkedCount, indeterminateCount), where a child
counts as indeterminate first, and as checked only when not indeterminate. -/
def tally (cs : List CB) : Nat × Nat :=
  cs.foldl
    (fun acc c =>
      if c.indeterminate then (acc.1, acc.2 + 1)
      else if c.checked then (acc.1 + 1, acc.2)
      else acc)
    (0, 0)

/-- Branching of _updateParentState on the counts: some-but-not-all checked
or any indeterminate child makes the parent indeterminate; all checked makes
it checked; otherwise it is cleared.  With no children the state is left as
it was (the early return). -/
def updateParentCB (old : CB) (cs : List CB) : CB :=
  if cs.isEmpty then old
  else
    let t := tally cs
    if 0 < t.2 ∨ (0 < t.1 ∧ t.1 < cs.length) then ⟨false, true⟩
    else if t.1 = cs.length then ⟨true, false⟩
    else ⟨false, false⟩

/-- Translation of _updateParentState: recompute a node's own state from its
immediate child checkboxes, returning early when there are none. -/
def updateParentState (n : Node) : Node :=
  if (findChildCheckboxes n).isEmpty then n
  else .mk (updateParentCB n.cb ((findChildCheckboxes n).map Node.cb)) (findChildCheckboxes n)

mutual
/-- Body of the querySelectorAll loop of _setChildCheckboxes restricted to
one subtree: every checkbox in the subtree is set to the given value and its
indeterminate flag cleared. -/
def forceAll (v : Bool) : Node → Node
  | .mk _ cs => .mk ⟨v, false⟩ (forceAllL v cs)

/-- Pointwise forceAll over a list of subtrees. -/
def forceAllL (v : Bool) : List Node → List Node
  | [] => []
  | n :: ns => forceAll v n :: forceAllL v ns
end

/-- Translation of _setChildCheckboxes: all checkboxes strictly below the
node (every checkbox inside its nested ul) receive the given checked value
and a cleared indeterminate flag; the node itself is untouched.  An li
without a nested ul returns early, which coincides with mapping over an
empty child list. -/
def setChildCheckboxes (v : Bool) (n : Node) : Node :=
  .mk n.cb (forceAllL v n.children)

/-- Loop of _updateAncestorCheckboxes with the iteration count made
explicit: while a parent exists (_findParentCheckbox, i.e. the address has
at least two components), recompute the parent and continue from it.  The
walk from an address of length L takes fewer than L steps, so L is enough
fuel; the function is extensionally the source's while loop. -/
def uaGo : Nat → Forest → Path → Forest
  | 0, f, _ => f
  | fuel + 1, f, p =>
    if p.length ≤ 1 then f
    else uaGo fuel (modifyF f p.dropLast updateParentState) p.dropLast

/-- Translation of _updateAncestorCheckboxes: starting from the toggled
node, repeatedly recompute the state of the enclosing parent node, one
structural level up per iteration, until no parent remains. -/
def updateAncestorCheckboxes (f : Forest) (p : Path) : Forest :=
  uaGo p.length f p

/-- Direct flip of one checkbox by the user: the browser's checkbox
activation sets checked to the chosen value and resets indeterminate (a
user action never makes a checkbox indeterminate).  This is the state the
change handler observes when it fires. -/
def userSetChecked (f : Forest) (p : Path) (v : Bool) : Forest :=
  modifyF f p fun n => .mk ⟨v, false⟩ n.children

/-- Translation of the closure built by _createChangeHandler: read the
checked value the user just set, force it onto all child checkboxes, then
update the ancestor checkboxes.  An address naming no checkbox fires no
handler. -/
def changeHandler (f : Forest) (p : Path) : Forest :=
  match getF f p with
  | none => f
  | some n => updateAncestorCheckboxes (modifyF f p (setChildCheckboxes n.cb.checked)) p

/-- Whole user toggle: the user flips the checkbox at an address to a
boolean value and the change handler runs on the resulting state. -/
def onToggle (f : Forest) (p : Path) (v : Bool) : Forest :=
  changeHandler (userSetChecked f p v) p

/-- Visit order of the upward walk, with the same fuel discipline as uaGo:
the ancestor addresses from the immediate parent up to the top level item. -/
def acGo : Nat → Path → List Path
  | 0, _ => []
  | fuel + 1, p =>
    if p.length ≤ 1 then []
    else p.dropLast :: acGo fuel p.dropLast

/-- Addresses visited by _updateAncestorCheckboxes, in visit order. -/
def ancestorChain (p : Path) : List Path :=
  acGo p.length p

mutual
/-- Relative addresses of the grouping nodes (nodes owning a non-empty
child list) within a subtree; these are the li items owning the uls that
_initializeState enumerates within the subtree. -/
def internalPathsN : Node → List Path
  | .mk _ cs => (if cs.isEmpty then [] else [[]]) ++ iPL 0 cs

/-- Grouping addresses contributed by a list of subtrees, the head subtree
sitting at the given index. -/
def iPL : Nat → List Node → List Path
  | _, [] => []
  | i, n :: ns => (internalPathsN n).map (fun r => i :: r) ++ iPL (i + 1) ns
end

/-- Addresses of all grouping nodes of a root container. -/
def internalPaths (f : Forest) : List Path :=
  iPL 0 f

/-- Largest address length among a list of addresses. -/
def maxLen (ps : List Path) : Nat :=
  ps.foldr (fun q m => max q.length m) 0

/-- Descending enumeration k-1, k-2, ..., 0. -/
def descRange : Nat → List Nat
  | 0 => []
  | k + 1 => k :: descRange k

/-- Reordering performed by the sort call of _initializeState: the addresses
grouped by length, deepest first.  The source sorts uls by document depth
with an unstable comparator; any order that is descending in depth is
equivalent for the algorithm, and this is one such order. -/
def byDepthDesc (ps : List Path) : List Path :=
  (descRange (maxLen ps + 1)).flatMap fun d => ps.filter fun q => q.length = d

/-- Translation of _initializeState on one root container: enumerate the
grouping nodes, order them by descending depth, and recompute each grouping
node's state from its immediate children in that order.  The root ul itself
is skipped by the source (its parent holds no checkbox), matching the
container holding no node at the empty address. -/
def initializeState (f : Forest) : Forest :=
  (byDepthDesc (internalPaths f)).foldl (fun g q => modifyF g q updateParentState) f

mutual
/-- Relative addresses of every node of a subtree, in document order. -/
def allPathsN : Node → List Path
  | .mk _ cs => [] :: aPL 0 cs

/-- Node addresses contributed by a list of subtrees, the head subtree
sitting at the given index. -/
def aPL : Nat → List Node → List Path
  | _, [] => []
  | i, n :: ns => (allPathsN n).map (fun r => i :: r) ++ aPL (i + 1) ns
end

/-- Addresses of every checkbox of a root container, as enumerated by the
querySelectorAll of _init when it registers change handlers. -/
def allPaths (f : Forest) : List Path :=
  aPL 0 f

mutual
/-- Check a boolean node predicate on every node of a subtree. -/
def nodeAllB (pred : Node → Bool) : Node → Bool
  | .mk c cs => pred (.mk c cs) && nodeAllBL pred cs

/-- Check a boolean node predicate on every node of a list of subtrees. -/
def nodeAllBL (pred : Node → Bool) : List Node → Bool
  | [] => true
  | n :: ns => nodeAllB pred n && nodeAllBL pred ns
end

/-- Executable check of a node predicate over a whole root container. -/
def forestAllB (pred : Node → Bool) (f : Forest) : Bool :=
  nodeAllBL pred f

/-- Parent-from-children rule of the specification at one address: whenever
the address holds a node with a non-empty child list, the node's state is
exactly what _updateParentState would recompute from its immediate
children. -/
def ConsAt (f : Forest) (q : Path) : Prop :=
  ∀ n, getF f q = some n → n.children ≠ [] →
    n.cb = updateParentCB n.cb (n.children.map Node.cb)

/-- Global consistency of a root container: the parent-from-children rule
holds at every address. -/
def Consistent (f : Forest) : Prop :=
  ∀ q, ConsAt f q

/-- Mutual exclusion of the two observable flags of one checkbox. -/
def SafeCB (c : CB) : Prop :=
  ¬(c.checked = true ∧ c.indeterminate = true)

/-- Mutual exclusion of checked and indeterminate over a root container. -/
def SafeF (f : Forest) : Prop :=
  ∀ q n, getF f q = some n → SafeCB n.cb

/-- Executable consistency check for one node. -/
def consistentNodeB (n : Node) : Bool :=
  n.children.isEmpty || decide (n.cb = updateParentCB n.cb (n.children.map Node.cb))

/-- Executable global consistency check. -/
def consistentB (f : Forest) : Bool :=
  forestAllB consistentNodeB f

/-- Executable mutual-exclusion check. -/
def safeB (f : Forest) : Bool :=
  forestAllB (fun n => !(n.cb.checked && n.cb.indeterminate)) f

/-- Argument accepted by the constructor, with external selector resolution
made explicit: a string carries the containers document.querySelectorAll
resolves it to, an Element is a single container, a NodeList or an Array
carries its member containers, and anything else resolves to nothing. -/
inductive SelectorArg where
  | str : List Forest → SelectorArg
  | element : Forest → SelectorArg
  | nodeList : List Forest → SelectorArg
  | arr : List Forest → SelectorArg
  | invalid : SelectorArg

/-- Translation of _getElements: the list of root containers an argument
resolves to. -/
def getElements : SelectorArg → List Forest
  | .str ms => ms
  | .element e => [e]
  | .nodeList l => l
  | .arr l => l
  | .invalid => []

/-- Component instance: the root containers, the handler registry (none
models a constructor that returned before creating the _handlers map, so
the field is absent on the object), and whether the construction error was
reported. -/
structure Instance where
  roots : List Forest
  handlers : Option (List (Nat × Path))
  errorReported : Bool

/-- Registered (root index, checkbox address) pairs for a list of roots,
the head root sitting at the given index. -/
def pathsWithRoot : Nat → List Forest → List (Nat × Path)
  | _, [] => []
  | i, r :: rs => (allPaths r).map (fun p => (i, p)) ++ pathsWithRoot (i + 1) rs

/-- Translation of the constructor: resolve the argument to root containers;
with none found, report the error and stop (roots stays empty and the
handler map is never created); otherwise create the handler registry, attach
a handler to every checkbox and initialize every root bottom-up.  The
constructor itself never throws. -/
def construct (sel : SelectorArg) : Instance :=
  let roots := getElements sel
  if roots.isEmpty then
    { roots := roots, handlers := none, errorReported := true }
  else
    { roots := roots.map initializeState,
      handlers := some (pathsWithRoot 0 roots),
      errorReported := false }

/-- Translation of destroy: reading this._handlers.forEach on an instance
whose constructor returned early dereferences an absent field and throws a
TypeError (the error case); otherwise every registered listener is removed
and the map is cleared, leaving an empty registry. -/
def destroy (inst : Instance) : Except Unit Instance :=
  match inst.handlers with
  | none => .error ()
  | some _ => .ok { inst with handlers := some [] }

/-- Change of one checkbox by the user after construction: the flip itself
always lands on the tree; the propagation handler runs only when a listener
is registered for that checkbox. -/
def dispatchChange (inst : Instance) (i : Nat) (p : Path) (v : Bool) : Instance :=
  let flipped := modifyIdx (fun r => userSetChecked r p v) i inst.roots
  if (inst.handlers.getD []).contains (i, p) then
    { inst with roots := modifyIdx (fun r => changeHandler r p) i flipped }
  else
    { inst with roots := flipped }

end Tristate

namespace Tristate

theorem idx?_modifyIdx_self {α : Type} (g : α → α) (l : List α) (i : Nat) :
    idx? (modifyIdx g i l) i = (idx? l i).map g := by
  induction l generalizing i with
  | nil => simp [modifyIdx, idx?]
  | cons a l ih =>
    cases i with
    | zero => simp [modifyIdx, idx?]
    | succ i => simpa [modifyIdx, idx?] using ih i

theorem idx?_modifyIdx_ne {α : Type} (g : α → α) (l : List α) {i j : Nat} (h : i ≠ j) :
    idx? (modifyIdx g i l) j = idx? l j := by
  induction l generalizing i j with
  | nil => simp [modifyIdx]
  | cons a l ih =>
    cases i with
    | zero =>
      cases j with
      | zero => exact absurd rfl h
      | succ j => simp [modifyIdx, idx?]
    | succ i =>
      cases j with
      | zero => simp [modifyIdx, idx?]
      | succ j => simpa [modifyIdx, idx?] using ih (by omega)

theorem modifyIdx_id {α : Type} (g : α → α) (i : Nat) (l : List α)
    (h : ∀ a, idx? l i = some a → g a = a) : modifyIdx g i l = l := by
  induction l generalizing i with
  | nil => cases i <;> rfl
  | cons a l ih =>
    cases i with
    | zero => simpa [modifyIdx] using h a (by rfl)
    | succ i =>
      simp only [modifyIdx, List.cons.injEq, true_and]
      exact ih i fun b hb => h b (by simpa [idx?] using hb)

theorem length_modifyIdx {α : Type} (g : α → α) (i : Nat) (l : List α) :
    (modifyIdx g i l).length = l.length := by
  induction l generalizing i with
  | nil => cases i <;> rfl
  | cons a l ih =>
    cases i with
    | zero => simp [modifyIdx]
    | succ i => simpa [modifyIdx] using ih i

theorem map_modifyIdx {α β : Type} (h : α → β) (g : α → α) (i : Nat) (l : List α)
    (hg : ∀ a, h (g a) = h a) : (modifyIdx g i l).map h = l.map h := by
  induction l generalizing i with
  | nil => cases i <;> rfl
  | cons a l ih =>
    cases i with
    | zero => simp [modifyIdx, hg]
    | succ i => simpa [modifyIdx] using ih i

theorem Node.getPath_cons (n : Node) (j : Nat) (js : Path) :
    n.getPath (j :: js) = (idx? n.children j).bind fun c => c.getPath js := by
  cases n with
  | mk c cs =>
    cases h : idx? cs j <;> simp [Node.getPath, Node.children, h]

theorem Node.getPath_append (n : Node) (p q : Path) :
    n.getPath (p ++ q) = (n.getPath p).bind fun m => m.getPath q := by
  induction p generalizing n with
  | nil => simp [Node.getPath]
  | cons i is ih =>
    cases n with
    | mk c cs =>
      simp only [List.cons_append, Node.getPath]
      cases idx? cs i with
      | none => rfl
      | some m => simpa using ih m

theorem Node.modifyPath_append (n : Node) (p q : Path) (g : Node → Node) :
    n.modifyPath g (p ++ q) = n.modifyPath (fun m => m.modifyPath g q) p := by
  induction p generalizing n with
  | nil =>
    simp only [List.nil_append]
    cases n
    rfl
  | cons i is ih =>
    cases n with
    | mk c cs =>
      simp only [List.cons_append, Node.modifyPath, Node.mk.injEq, true_and]
      congr 1
      funext m
      exact ih m

theorem Node.modifyPath_cons_cb (n : Node) (g : Node → Node) (i : Nat) (is : Path) :
    (n.modifyPath g (i :: is)).cb = n.cb := by
  cases n; rfl

theorem Node.modifyPath_cons_children (n : Node) (g : Node → Node) (i : Nat) (is : Path) :
    (n.modifyPath g (i :: is)).children = modifyIdx (fun m => m.modifyPath g is) i n.children := by
  cases n; rfl

theorem getPath_modifyPath_append (n : Node) (p r : Path) (g : Node → Node) :
    (n.modifyPath g p).getPath (p ++ r) = (n.getPath p).bind fun m => (g m).getPath r := by
  induction p generalizing n with
  | nil => simp [Node.modifyPath, Node.getPath]
  | cons i is ih =>
    cases n with
    | mk c cs =>
      simp only [List.cons_append, Node.modifyPath]
      rw [Node.getPath_cons, Node.getPath_cons]
      simp only [Node.children]
      rw [idx?_modifyIdx_self]
      cases idx? cs i with
      | none => rfl
      | some m => exact ih m

theorem getPath_modifyPath_self (n : Node) (p : Path) (g : Node → Node) :
    (n.modifyPath g p).getPath p = (n.getPath p).map g := by
  have h := getPath_modifyPath_append n p [] g
  rw [List.append_nil] at h
  rw [h]
  cases n.getPath p <;> simp [Node.getPath]

theorem getPath_modifyPath_off (n : Node) (g : Node → Node) {p q : Path}
    (h1 : ¬(p <+: q)) (h2 : ¬(q <+: p)) :
    (n.modifyPath g p).getPath q = n.getPath q := by
  induction p generalizing n q with
  | nil => exact absurd ⟨q, rfl⟩ h1
  | cons i is ih =>
    cases q with
    | nil => exact absurd ⟨i :: is, rfl⟩ h2
    | cons j js =>
      by_cases hij : i = j
      · subst hij
        rw [Node.getPath_cons, Node.getPath_cons, Node.modifyPath_cons_children,
          idx?_modifyIdx_self]
        cases idx? n.children i with
        | none => rfl
        | some m =>
          exact ih m (fun hx => h1 (List.cons_prefix_cons.mpr ⟨rfl, hx⟩))
            (fun hx => h2 (List.cons_prefix_cons.mpr ⟨rfl, hx⟩))
      · rw [Node.getPath_cons, Node.getPath_cons, Node.modifyPath_cons_children,
          idx?_modifyIdx_ne _ _ hij]

theorem getPath_modifyPath_cbonly (n : Node) (g : Node → Node)
    (hg : ∀ m, (g m).children = m.children) {p q : Path} (h : ¬(q <+: p)) :
    (n.modifyPath g p).getPath q = n.getPath q := by
  induction p generalizing n q with
  | nil =>
    cases q with
    | nil => exact absurd ⟨[], rfl⟩ h
    | cons j js => rw [Node.getPath_cons, Node.getPath_cons, Node.modifyPath, hg]
  | cons i is ih =>
    cases q with
    | nil => exact absurd ⟨i :: is, rfl⟩ h
    | cons j js =>
      by_cases hij : i = j
      · subst hij
        rw [Node.getPath_cons, Node.getPath_cons, Node.modifyPath_cons_children,
          idx?_modifyIdx_self]
        cases idx? n.children i with
        | none => rfl
        | some m =>
          exact ih m fun hx => h (List.cons_prefix_cons.mpr ⟨rfl, hx⟩)
      · rw [Node.getPath_cons, Node.getPath_cons, Node.modifyPath_cons_children,
          idx?_modifyIdx_ne _ _ hij]

end Tristate


namespace Tristate

theorem pfx_dropLast {q p : Path} (h : q <+: p) (hne : q ≠ p) : q <+: p.dropLast := by
  obtain ⟨s, rfl⟩ := h
  cases s with
  | nil => exact absurd (List.append_nil q).symm hne
  | cons a s =>
    have hs : (a :: s) ≠ [] := by simp
    have hd : ((a :: s).dropLast ++ [(a :: s).getLast hs]) = a :: s :=
      List.dropLast_append_getLast hs
    refine ⟨(a :: s).dropLast, ?_⟩
    rw [show q ++ (a :: s) = (q ++ (a :: s).dropLast) ++ [(a :: s).getLast hs] from by
      rw [List.append_assoc, hd]]
    rw [List.dropLast_concat]

theorem pfx_antisymm {q p : Path} (h1 : q <+: p) (h2 : p <+: q) : q = p := by
  obtain ⟨s, hs⟩ := h1
  obtain ⟨t, ht⟩ := h2
  have hl1 : q.length + s.length = p.length := by
    simpa using congrArg List.length hs
  have hl2 : p.length + t.length = q.length := by
    simpa using congrArg List.length ht
  have : s.length = 0 := by omega
  have hsnil : s = [] := List.length_eq_zero.mp this
  rw [hsnil, List.append_nil] at hs
  exact hs

theorem pfx_dropLast_self {p : Path} (hp : p ≠ []) : p.dropLast <+: p := by
  refine ⟨[p.getLast hp], ?_⟩
  exact List.dropLast_append_getLast hp

theorem getPath_modifyPath_anc_cb (n : Node) (g : Node → Node) {p q : Path}
    (h1 : q <+: p) (h2 : q ≠ p) :
    ((n.modifyPath g p).getPath q).map Node.cb = (n.getPath q).map Node.cb := by
  obtain ⟨s, rfl⟩ := h1
  cases s with
  | nil => exact absurd (List.append_nil q).symm h2
  | cons a s =>
    rw [Node.modifyPath_append, getPath_modifyPath_self]
    cases n.getPath q with
    | none => rfl
    | some m =>
      simp only [Option.map_some']
      rw [Node.modifyPath_cons_cb]

theorem getPath_modifyPath_anc_ccbs (n : Node) (g : Node → Node) {p q : Path}
    (h1 : q <+: p) (h2 : q ≠ p) (h3 : q ≠ p.dropLast) :
    ((n.modifyPath g p).getPath q).map (fun m => m.children.map Node.cb) =
      (n.getPath q).map fun m => m.children.map Node.cb := by
  obtain ⟨s, rfl⟩ := h1
  cases s with
  | nil => exact absurd (List.append_nil q).symm h2
  | cons a s =>
    cases s with
    | nil => exact absurd (by simp) h3
    | cons b s =>
      rw [Node.modifyPath_append, getPath_modifyPath_self]
      cases n.getPath q with
      | none => rfl
      | some m =>
        simp only [Option.map_some']
        rw [Node.modifyPath_cons_children]
        rw [map_modifyIdx]
        intro x
        exact Node.modifyPath_cons_cb x _ b s

theorem getF_cons (f : Forest) (j : Nat) (js : Path) :
    getF f (j :: js) = (idx? f j).bind fun n => n.getPath js := by
  cases h : idx? f j <;> simp [getF, h]

theorem modifyF_cons (f : Forest) (i : Nat) (is : Path) (g : Node → Node) :
    modifyF f (i :: is) g = modifyIdx (fun n => n.modifyPath g is) i f := rfl

theorem getF_append (f : Forest) {p : Path} (r : Path) (hp : p ≠ []) :
    getF f (p ++ r) = (getF f p).bind fun m => m.getPath r := by
  cases p with
  | nil => exact absurd rfl hp
  | cons i is =>
    rw [List.cons_append, getF_cons, getF_cons]
    cases idx? f i with
    | none => rfl
    | some n => exact Node.getPath_append n is r

theorem getF_modifyF_append (f : Forest) {p : Path} (r : Path) (g : Node → Node) (hp : p ≠ []) :
    getF (modifyF f p g) (p ++ r) = (getF f p).bind fun m => (g m).getPath r := by
  cases p with
  | nil => exact absurd rfl hp
  | cons i is =>
    rw [List.cons_append, modifyF_cons, getF_cons, getF_cons, idx?_modifyIdx_self]
    cases idx? f i with
    | none => rfl
    | some n => exact getPath_modifyPath_append n is r g

theorem getF_modifyF_self (f : Forest) {p : Path} (g : Node → Node) (hp : p ≠ []) :
    getF (modifyF f p g) p = (getF f p).map g := by
  have h := getF_modifyF_append f [] g hp
  rw [List.append_nil] at h
  rw [h]
  cases getF f p <;> simp [Node.getPath]

theorem getF_modifyF_off (f : Forest) (g : Node → Node) {p q : Path}
    (h1 : ¬(p <+: q)) (h2 : ¬(q <+: p)) :
    getF (modifyF f p g) q = getF f q := by
  cases p with
  | nil => rfl
  | cons i is =>
    cases q with
    | nil => exact absurd ⟨i :: is, rfl⟩ h2
    | cons j js =>
      rw [modifyF_cons, getF_cons, getF_cons]
      by_cases hij : i = j
      · subst hij
        rw [idx?_modifyIdx_self]
        cases idx? f i with
        | none => rfl
        | some n =>
          exact getPath_modifyPath_off n g (fun hx => h1 (List.cons_prefix_cons.mpr ⟨rfl, hx⟩))
            fun hx => h2 (List.cons_prefix_cons.mpr ⟨rfl, hx⟩)
      · rw [idx?_modifyIdx_ne _ _ hij]

theorem getF_modifyF_cbonly (f : Forest) (g : Node → Node)
    (hg : ∀ m, (g m).children = m.children) {p q : Path} (h : ¬(q <+: p)) :
    getF (modifyF f p g) q = getF f q := by
  cases p with
  | nil => rfl
  | cons i is =>
    cases q with
    | nil => exact absurd ⟨i :: is, rfl⟩ h
    | cons j js =>
      rw [modifyF_cons, getF_cons, getF_cons]
      by_cases hij : i = j
      · subst hij
        rw [idx?_modifyIdx_self]
        cases idx? f i with
        | none => rfl
        | some n =>
          exact getPath_modifyPath_cbonly n g hg fun hx =>
            h (List.cons_prefix_cons.mpr ⟨rfl, hx⟩)
      · rw [idx?_modifyIdx_ne _ _ hij]

theorem getCB_modifyF_anc (f : Forest) (g : Node → Node) {p q : Path}
    (h1 : q <+: p) (h2 : q ≠ p) :
    getCB (modifyF f p g) q = getCB f q := by
  unfold getCB
  cases p with
  | nil => rfl
  | cons i is =>
    cases q with
    | nil => rfl
    | cons j js =>
      rcases List.cons_prefix_cons.mp h1 with ⟨hji, hjs⟩
      rw [modifyF_cons, getF_cons, getF_cons, hji, idx?_modifyIdx_self]
      cases idx? f i with
      | none => rfl
      | some n =>
        exact getPath_modifyPath_anc_cb n g hjs fun hx => h2 (by rw [hji, hx])
end Tristate

namespace Tristate

theorem getPath_modifyPath_anc_clen (n : Node) (g : Node → Node) {p q : Path}
    (h1 : q <+: p) (h2 : q ≠ p) :
    ((n.modifyPath g p).getPath q).map (fun m => m.children.length) =
      (n.getPath q).map fun m => m.children.length := by
  obtain ⟨s, rfl⟩ := h1
  cases s with
  | nil => exact absurd (List.append_nil q).symm h2
  | cons a s =>
    rw [Node.modifyPath_append, getPath_modifyPath_self]
    cases n.getPath q with
    | none => rfl
    | some m =>
      simp only [Option.map_some']
      rw [Node.modifyPath_cons_children, length_modifyIdx]

theorem childCBs_modifyF_frame (f : Forest) (g : Node → Node) {p q : Path}
    (h1 : ¬(p <+: q)) (h2 : q ≠ p.dropLast) :
    childCBs (modifyF f p g) q = childCBs f q := by
  cases hp : p with
  | nil => rfl
  | cons i is =>
    cases hq : q with
    | nil => rfl
    | cons j js =>
      rw [← hp, ← hq]
      by_cases hqp : q <+: p
      · have hne : q ≠ p := fun hx => h1 (hx ▸ ⟨[], List.append_nil q⟩)
        unfold childCBs
        subst hp hq
        rcases List.cons_prefix_cons.mp hqp with ⟨hji, hjs⟩
        rw [modifyF_cons, getF_cons, getF_cons, hji, idx?_modifyIdx_self]
        cases idx? f i with
        | none => rfl
        | some n =>
          refine getPath_modifyPath_anc_ccbs n g hjs (fun hx => hne (by rw [hji, hx])) ?_
          intro hx
          cases is with
          | nil => exact hne (by rw [hji, List.prefix_nil.mp hjs])
          | cons b bs => exact h2 (by rw [hji, hx]; rfl)
      · unfold childCBs
        rw [getF_modifyF_off f g h1 hqp]

theorem childLen_modifyF_cbonly (f : Forest) (g : Node → Node)
    (hg : ∀ m, (g m).children = m.children) (p q : Path) :
    (getF (modifyF f p g) q).map (fun n => n.children.length) =
      (getF f q).map fun n => n.children.length := by
  by_cases hqp : q <+: p
  · by_cases hne : q = p
    · subst hne
      cases hq : q with
      | nil => rfl
      | cons j js =>
        rw [← hq, getF_modifyF_self f g (by simp [hq])]
        cases getF f q with
        | none => rfl
        | some n => simp [hg]
    · cases hp : p with
      | nil =>
        exact absurd (List.prefix_nil.mp (hp ▸ hqp)) (hp ▸ hne)
      | cons i is =>
        rw [← hp]
        cases hq : q with
        | nil => rfl
        | cons j js =>
          subst hp hq
          rcases List.cons_prefix_cons.mp hqp with ⟨hji, hjs⟩
          rw [modifyF_cons, getF_cons, getF_cons, hji, idx?_modifyIdx_self]
          cases idx? f i with
          | none => rfl
          | some n =>
            exact getPath_modifyPath_anc_clen n g hjs fun hx => hne (by rw [hji, hx])
  · rw [getF_modifyF_cbonly f g hg hqp]

theorem getF_some_of_pfx {f : Forest} {p q : Path} {n : Node}
    (h : getF f p = some n) (hq : q <+: p) (hne : q ≠ []) : ∃ m, getF f q = some m := by
  obtain ⟨s, rfl⟩ := hq
  rw [getF_append f s hne] at h
  cases hx : getF f q with
  | none => rw [hx] at h; exact absurd h (by simp)
  | some m => exact ⟨m, rfl⟩

theorem consAt_transfer {f f' : Forest} {q : Path} (hcb : getCB f' q = getCB f q)
    (hcc : childCBs f' q = childCBs f q) (h : ConsAt f q) : ConsAt f' q := by
  intro n' hn' hne
  have h1 : getCB f q = some n'.cb := by rw [← hcb]; simp [getCB, hn']
  have h2 : childCBs f q = some (n'.children.map Node.cb) := by rw [← hcc]; simp [childCBs, hn']
  obtain ⟨n, hn, hcbe, hcce⟩ :
      ∃ n, getF f q = some n ∧ n.cb = n'.cb ∧ n.children.map Node.cb = n'.children.map Node.cb := by
    cases hx : getF f q with
    | none => rw [getCB, hx] at h1; exact absurd h1 (by simp)
    | some m =>
      refine ⟨m, rfl, ?_, ?_⟩
      · simpa [getCB, hx] using h1
      · simpa [childCBs, hx] using h2
  have hnne : n.children ≠ [] := by
    intro hx
    rw [hx] at hcce
    exact hne (List.map_eq_nil_iff.mp hcce.symm)
  have hr := h n hn hnne
  rw [hcbe, hcce] at hr
  exact hr

theorem nodeAllBL_sound (pred : Node → Bool) (l : List Node) (h : nodeAllBL pred l = true)
    {i : Nat} {n : Node} (hn : idx? l i = some n) : nodeAllB pred n = true := by
  induction l generalizing i with
  | nil => cases i <;> simp [idx?] at hn
  | cons a l ih =>
    rw [nodeAllBL] at h
    rcases Bool.and_eq_true_iff.mp h with ⟨h1, h2⟩
    cases i with
    | zero => cases hn; exact h1
    | succ i => exact ih h2 (by simpa [idx?] using hn)

theorem nodeAllB_getPath (pred : Node → Bool) {n : Node} (h : nodeAllB pred n = true)
    {r : Path} {m : Node} (hm : n.getPath r = some m) : pred m = true := by
  induction r generalizing n with
  | nil =>
    cases n with
    | mk c cs =>
      rw [show Node.getPath (Node.mk c cs) [] = some (Node.mk c cs) from rfl] at hm
      cases hm
      exact (Bool.and_eq_true_iff.mp (by rw [nodeAllB] at h; exact h)).1
  | cons i is ih =>
    rw [Node.getPath_cons] at hm
    cases hx : idx? n.children i with
    | none => rw [hx] at hm; exact absurd hm (by simp)
    | some c =>
      rw [hx] at hm
      have hL : nodeAllBL pred n.children = true := by
        cases n with
        | mk cb cs => exact (Bool.and_eq_true_iff.mp (by rw [nodeAllB] at h; exact h)).2
      exact ih (nodeAllBL_sound pred n.children hL hx) (by simpa using hm)

theorem forestAllB_sound (pred : Node → Bool) (f : Forest) (h : forestAllB pred f = true)
    {q : Path} {n : Node} (hn : getF f q = some n) : pred n = true := by
  cases q with
  | nil => simp [getF] at hn
  | cons i is =>
    rw [getF_cons] at hn
    cases hx : idx? f i with
    | none => rw [hx] at hn; exact absurd hn (by simp)
    | some m =>
      rw [hx] at hn
      exact nodeAllB_getPath pred (nodeAllBL_sound pred f h hx) (by simpa using hn)

theorem consistentB_sound (f : Forest) (h : consistentB f = true) : Consistent f := by
  intro q n hn hne
  have hp := forestAllB_sound consistentNodeB f h hn
  rw [consistentNodeB] at hp
  rcases Bool.or_eq_true_iff.mp hp with hx | hx
  · exact absurd (List.isEmpty_iff.mp hx) hne
  · exact of_decide_eq_true hx

theorem safeB_sound (f : Forest) (h : safeB f = true) : SafeF f := by
  intro q n hn
  have hp := forestAllB_sound _ f h hn
  intro ⟨h1, h2⟩
  rw [h1, h2] at hp
  simp at hp

end Tristate

namespace Tristate

theorem tally_eq (cs : List CB) :
    tally cs = (cs.countP fun c => !c.indeterminate && c.checked, cs.countP fun c => c.indeterminate) := by
  have aux : ∀ (l : List CB) (a b : Nat),
      l.foldl
        (fun acc c =>
          if c.indeterminate then (acc.1, acc.2 + 1)
          else if c.checked then (acc.1 + 1, acc.2)
          else acc)
        (a, b) =
      (a + l.countP fun c => !c.indeterminate && c.checked, b + l.countP fun c => c.indeterminate) := by
    intro l
    induction l with
    | nil => intro a b; simp
    | cons c l ih =>
      intro a b
      by_cases h1 : c.indeterminate = true
      · have hstep : (if c.indeterminate = true then ((a, b).1, (a, b).2 + 1)
            else if c.checked = true then ((a, b).1 + 1, (a, b).2) else (a, b)) = (a, b + 1) := by
          simp [h1]
        rw [List.foldl_cons, hstep, ih]
        rw [List.countP_cons_of_neg _ _ (by simp [h1]), List.countP_cons_of_pos _ _ (by simp [h1])]
        have harith : b + 1 + List.countP (fun c => c.indeterminate) l =
            b + (List.countP (fun c => c.indeterminate) l + 1) := by omega
        rw [harith]
      · replace h1 : c.indeterminate = false := by simpa using h1
        by_cases h2 : c.checked = true
        · have hstep : (if c.indeterminate = true then ((a, b).1, (a, b).2 + 1)
              else if c.checked = true then ((a, b).1 + 1, (a, b).2) else (a, b)) = (a + 1, b) := by
            simp [h1, h2]
          rw [List.foldl_cons, hstep, ih]
          rw [List.countP_cons_of_pos _ _ (by simp [h1, h2]), List.countP_cons_of_neg _ _ (by simp [h1])]
          have harith : a + 1 + List.countP (fun c => !c.indeterminate && c.checked) l =
              a + (List.countP (fun c => !c.indeterminate && c.checked) l + 1) := by omega
          rw [harith]
        · replace h2 : c.checked = false := by simpa using h2
          have hstep : (if c.indeterminate = true then ((a, b).1, (a, b).2 + 1)
              else if c.checked = true then ((a, b).1 + 1, (a, b).2) else (a, b)) = (a, b) := by
            simp [h1, h2]
          rw [List.foldl_cons, hstep, ih]
          rw [List.countP_cons_of_neg _ _ (by simp [h1, h2]), List.countP_cons_of_neg _ _ (by simp [h1])]
  rw [tally, aux]
  simp

theorem updateParentCB_old_irrelevant (o1 o2 : CB) (cs : List CB) (h : cs ≠ []) :
    updateParentCB o1 cs = updateParentCB o2 cs := by
  have hne : cs.isEmpty = false := by simpa using h
  simp [updateParentCB, hne]

theorem updateParentCB_spec (old : CB) (cs : List CB) (h : cs ≠ []) :
    ((updateParentCB old cs).checked = true ↔ ∀ c ∈ cs, c.checked = true ∧ c.indeterminate = false)
  ∧ ((updateParentCB old cs).indeterminate = true ↔
      ((∃ c ∈ cs, c.indeterminate = true) ∨
        (0 < (cs.filter fun c => c.checked).length ∧
          (cs.filter fun c => c.checked).length < cs.length))) := by
  have hne : cs.isEmpty = false := by simpa using h
  have ht := tally_eq cs
  have ht1 : (tally cs).1 = cs.countP fun c => !c.indeterminate && c.checked := by rw [ht]
  have ht2 : (tally cs).2 = cs.countP fun c => c.indeterminate := by rw [ht]
  have hfilter : (cs.filter fun c => c.checked).length = cs.countP fun c => c.checked := by
    rw [List.countP_eq_length_filter]
  have hnoindet : (∀ c ∈ cs, c.indeterminate = false) →
      (cs.countP fun c => !c.indeterminate && c.checked) = cs.countP fun c => c.checked := by
    intro hall
    refine List.countP_congr ?_
    intro c hc
    simp [hall c hc]
  constructor
  · constructor
    · intro hc
      rw [updateParentCB, if_neg (by simp [hne])] at hc
      by_cases h1 : 0 < (tally cs).2 ∨ (0 < (tally cs).1 ∧ (tally cs).1 < cs.length)
      · rw [if_pos h1] at hc; simp at hc
      · rw [if_neg h1] at hc
        by_cases h2 : (tally cs).1 = cs.length
        · intro c hc2
          have := List.countP_eq_length.mp (ht1 ▸ h2) c hc2
          rcases Bool.and_eq_true_iff.mp this with ⟨hi, hch⟩
          exact ⟨hch, by simpa using hi⟩
        · rw [if_neg h2] at hc; simp at hc
    · intro hall
      have h2 : (tally cs).1 = cs.length := by
        rw [ht1]
        exact List.countP_eq_length.mpr fun c hc => by simp [(hall c hc).1, (hall c hc).2]
      have hz : (tally cs).2 = 0 := by
        rw [ht2]
        exact List.countP_eq_zero.mpr fun c hc => by simp [(hall c hc).2]
      rw [updateParentCB, if_neg (by simp [hne]), if_neg (by rw [hz, h2]; omega), if_pos h2]
  · constructor
    · intro hc
      rw [updateParentCB, if_neg (by simp [hne])] at hc
      by_cases h1 : 0 < (tally cs).2 ∨ (0 < (tally cs).1 ∧ (tally cs).1 < cs.length)
      · rcases h1 with h1 | h1
        · left
          rw [ht2] at h1
          obtain ⟨c, hc2, hp⟩ := List.countP_pos_iff.mp h1
          exact ⟨c, hc2, hp⟩
        · by_cases hind : ∃ c ∈ cs, c.indeterminate = true
          · exact Or.inl hind
          · right
            have hall : ∀ c ∈ cs, c.indeterminate = false := by
              intro c hc2
              by_contra hx
              exact hind ⟨c, hc2, by simpa using hx⟩
            rw [hfilter, ← hnoindet hall, ← ht1]
            exact h1
      · rw [if_neg h1] at hc
        by_cases h2 : (tally cs).1 = cs.length
        · rw [if_pos h2] at hc; simp at hc
        · rw [if_neg h2] at hc; simp at hc
    · intro hd
      have h1 : 0 < (tally cs).2 ∨ (0 < (tally cs).1 ∧ (tally cs).1 < cs.length) := by
        rcases hd with ⟨c, hc2, hi⟩ | ⟨hlo, hhi⟩
        · left
          rw [ht2]
          exact List.countP_pos_iff.mpr ⟨c, hc2, by simp [hi]⟩
        · by_cases hind : ∃ c ∈ cs, c.indeterminate = true
          · left
            rw [ht2]
            obtain ⟨c, hc2, hi⟩ := hind
            exact List.countP_pos_iff.mpr ⟨c, hc2, by simp [hi]⟩
          · right
            have hall : ∀ c ∈ cs, c.indeterminate = false := by
              intro c hc2
              by_contra hx
              exact hind ⟨c, hc2, by simpa using hx⟩
            rw [ht1, hnoindet hall, ← hfilter]
            exact ⟨hlo, hhi⟩
      rw [updateParentCB, if_neg (by simp [hne]), if_pos h1]

theorem updateParentCB_all_same (c : CB) (v : Bool) (cs : List CB) (h : cs ≠ [])
    (hall : ∀ x ∈ cs, x = ⟨v, false⟩) : updateParentCB c cs = ⟨v, false⟩ := by
  have hne : cs.isEmpty = false := by simpa using h
  have ht := tally_eq cs
  have hlen : 0 < cs.length := List.length_pos.mpr h
  cases v with
  | true =>
    have h2 : (tally cs).1 = cs.length := by
      rw [ht]
      exact List.countP_eq_length.mpr fun x hx => by rw [hall x hx]; rfl
    have hz : (tally cs).2 = 0 := by
      rw [ht]
      exact List.countP_eq_zero.mpr fun x hx => by rw [hall x hx]; simp
    rw [updateParentCB, if_neg (by simp [hne]), if_neg (by rw [hz, h2]; omega), if_pos h2]
  | false =>
    have h2 : (tally cs).1 = 0 := by
      rw [ht]
      exact List.countP_eq_zero.mpr fun x hx => by rw [hall x hx]; simp
    have hz : (tally cs).2 = 0 := by
      rw [ht]
      exact List.countP_eq_zero.mpr fun x hx => by rw [hall x hx]; simp
    rw [updateParentCB, if_neg (by simp [hne]), if_neg (by rw [hz, h2]; omega),
      if_neg (by rw [h2]; omega)]

theorem updateParentState_children (n : Node) :
    (updateParentState n).children = n.children := by
  rw [updateParentState]
  by_cases h : (findChildCheckboxes n).isEmpty
  · rw [if_pos h]
  · rw [if_neg h, findChildCheckboxes, Node.children]

theorem updateParentState_consistent (n : Node) (h : (updateParentState n).children ≠ []) :
    (updateParentState n).cb =
      updateParentCB (updateParentState n).cb ((updateParentState n).children.map Node.cb) := by
  rw [updateParentState_children] at h
  have hne : (findChildCheckboxes n).isEmpty = false := by
    simpa [findChildCheckboxes] using h
  have hmapne : (findChildCheckboxes n).map Node.cb ≠ [] := by
    simpa [findChildCheckboxes, List.map_eq_nil_iff] using h
  rw [updateParentState, if_neg (by simp [hne])]
  show updateParentCB n.cb ((findChildCheckboxes n).map Node.cb) =
    updateParentCB (updateParentCB n.cb ((findChildCheckboxes n).map Node.cb))
      ((findChildCheckboxes n).map Node.cb)
  exact updateParentCB_old_irrelevant _ _ _ hmapne

theorem updateParentState_id (n : Node)
    (h : n.children ≠ [] → n.cb = updateParentCB n.cb (n.children.map Node.cb)) :
    updateParentState n = n := by
  by_cases hc : n.children = []
  · rw [updateParentState, if_pos (by simp [findChildCheckboxes, hc])]
  · rw [updateParentState, if_neg (by simp [findChildCheckboxes, hc]), findChildCheckboxes,
      ← h hc]
    cases n
    rfl

end Tristate

namespace Tristate

theorem forceAll_cb (v : Bool) (n : Node) : (forceAll v n).cb = ⟨v, false⟩ := by
  cases n; rw [forceAll]; rfl

theorem forceAll_children (v : Bool) (n : Node) :
    (forceAll v n).children = forceAllL v n.children := by
  cases n; rw [forceAll]; rfl

theorem idx?_forceAllL (v : Bool) (cs : List Node) (i : Nat) :
    idx? (forceAllL v cs) i = (idx? cs i).map (forceAll v) := by
  induction cs generalizing i with
  | nil => rw [forceAllL]; cases i <;> rfl
  | cons n ns ih =>
    rw [forceAllL]
    cases i with
    | zero => rfl
    | succ i => exact ih i

theorem forceAll_getPath (v : Bool) (n : Node) (r : Path) (m : Node)
    (hm : (forceAll v n).getPath r = some m) : ∃ n0, m = forceAll v n0 := by
  induction r generalizing n with
  | nil =>
    refine ⟨n, ?_⟩
    cases n with
    | mk c cs =>
      rw [forceAll] at hm ⊢
      rw [show (Node.mk (⟨v, false⟩ : CB) (forceAllL v cs)).getPath [] =
        some (Node.mk (⟨v, false⟩ : CB) (forceAllL v cs)) from rfl] at hm
      cases hm
      rfl
  | cons i is ih =>
    rw [Node.getPath_cons, forceAll_children, idx?_forceAllL] at hm
    cases hx : idx? n.children i with
    | none => rw [hx] at hm; exact absurd hm (by simp)
    | some c =>
      rw [hx] at hm
      exact ih c (by simpa using hm)

theorem ua_base (f : Forest) (p : Path) (h : p.length ≤ 1) :
    updateAncestorCheckboxes f p = f := by
  rw [updateAncestorCheckboxes]
  cases p with
  | nil => rfl
  | cons i is =>
    cases is with
    | nil => rfl
    | cons j js => simp at h

theorem ua_step (f : Forest) (p : Path) (h : 2 ≤ p.length) :
    updateAncestorCheckboxes f p =
      updateAncestorCheckboxes (modifyF f p.dropLast updateParentState) p.dropLast := by
  rw [updateAncestorCheckboxes, updateAncestorCheckboxes]
  obtain ⟨k, hk⟩ : ∃ k, p.length = k + 1 := ⟨p.length - 1, by omega⟩
  rw [hk, uaGo, if_neg (by omega), List.length_dropLast, hk]
  rfl

theorem modifyPath_id (n : Node) (p : Path) (g : Node → Node)
    (h : ∀ m, n.getPath p = some m → g m = m) : n.modifyPath g p = n := by
  induction p generalizing n with
  | nil =>
    cases n with
    | mk c cs => exact h _ rfl
  | cons i is ih =>
    cases n with
    | mk c cs =>
      rw [Node.modifyPath]
      rw [modifyIdx_id]
      intro m hm
      refine ih m fun m2 hm2 => h m2 ?_
      rw [Node.getPath_cons]
      simp only [Node.children]
      rw [hm]
      exact hm2

theorem modifyF_id (f : Forest) (p : Path) (g : Node → Node)
    (h : ∀ m, getF f p = some m → g m = m) : modifyF f p g = f := by
  cases p with
  | nil => rfl
  | cons i is =>
    rw [modifyF_cons, modifyIdx_id]
    intro n hn
    refine modifyPath_id n is g fun m hm => h m ?_
    rw [getF_cons, hn]
    exact hm

theorem getCB_modifyF_cbonly_ne (f : Forest) (g : Node → Node)
    (hg : ∀ m, (g m).children = m.children) {p q : Path} (hne : q ≠ p) :
    getCB (modifyF f p g) q = getCB f q := by
  by_cases hqp : q <+: p
  · exact getCB_modifyF_anc f g hqp hne
  · rw [getCB, getCB, getF_modifyF_cbonly f g hg hqp]

theorem childCBs_modifyF_cbonly (f : Forest) (g : Node → Node)
    (hg : ∀ m, (g m).children = m.children) (hcb : ∀ m, ((g m).children.map Node.cb) = m.children.map Node.cb)
    {p q : Path} (hq : q ≠ p.dropLast) :
    childCBs (modifyF f p g) q = childCBs f q := by
  by_cases hpq : p <+: q
  · by_cases hne : q = p
    · subst hne
      cases hp : q with
      | nil => rfl
      | cons i is =>
        rw [← hp]
        unfold childCBs
        rw [getF_modifyF_self f g (by simp [hp])]
        cases getF f q with
        | none => rfl
        | some n => simp [hcb]
    · have : q ≠ p ∧ p <+: q := ⟨hne, hpq⟩
      unfold childCBs
      rw [getF_modifyF_cbonly f g hg]
      intro hx
      exact hne (pfx_antisymm hx hpq)
  · exact childCBs_modifyF_frame f g hpq hq

end Tristate

namespace Tristate

theorem ua_getF_below_aux (k : Nat) : ∀ (f : Forest) (p q : Path), p.length ≤ k → p <+: q →
    getF (updateAncestorCheckboxes f p) q = getF f q := by
  induction k with
  | zero => intro f p q hk _; rw [ua_base f p (by omega)]
  | succ k ih =>
    intro f p q hk hpq
    by_cases h2 : p.length ≤ 1
    · rw [ua_base f p h2]
    · have hpne : p ≠ [] := by intro hx; rw [hx] at h2; simp at h2
      rw [ua_step f p (by omega)]
      have hlen : p.dropLast.length ≤ k := by rw [List.length_dropLast]; omega
      have hp' : p.dropLast <+: q := (pfx_dropLast_self hpne).trans hpq
      rw [ih _ _ _ hlen hp']
      refine getF_modifyF_cbonly f _ updateParentState_children ?_
      intro hx
      have l1 := hx.length_le
      have l2 := hpq.length_le
      rw [List.length_dropLast] at l1
      omega

theorem ua_getF_below (f : Forest) {p q : Path} (hpq : p <+: q) :
    getF (updateAncestorCheckboxes f p) q = getF f q :=
  ua_getF_below_aux p.length f p q le_rfl hpq

theorem ua_getCB_aux (k : Nat) : ∀ (f : Forest) (p q : Path), p.length ≤ k →
    (¬(q <+: p) ∨ q = p) → getCB (updateAncestorCheckboxes f p) q = getCB f q := by
  induction k with
  | zero => intro f p q hk _; rw [ua_base f p (by omega)]
  | succ k ih =>
    intro f p q hk hq
    by_cases h2 : p.length ≤ 1
    · rw [ua_base f p h2]
    · have hpne : p ≠ [] := by intro hx; rw [hx] at h2; simp at h2
      rw [ua_step f p (by omega)]
      have hlen : p.dropLast.length ≤ k := by rw [List.length_dropLast]; omega
      have hp'p : p.dropLast <+: p := pfx_dropLast_self hpne
      have hnext : ¬(q <+: p.dropLast) ∨ q = p.dropLast := by
        rcases hq with hq | hq
        · exact Or.inl fun hx => hq (hx.trans hp'p)
        · subst hq
          refine Or.inl fun hx => ?_
          have := hx.length_le
          rw [List.length_dropLast] at this
          omega
      rw [ih _ _ _ hlen hnext]
      refine getCB_modifyF_cbonly_ne f _ updateParentState_children ?_
      intro hx
      rcases hq with hq | hq
      · exact hq (hx ▸ hp'p)
      · subst hq
        have hcl := congrArg List.length hx
        rw [List.length_dropLast] at hcl
        omega

theorem ua_getCB (f : Forest) {p q : Path} (hq : ¬(q <+: p) ∨ q = p) :
    getCB (updateAncestorCheckboxes f p) q = getCB f q :=
  ua_getCB_aux p.length f p q le_rfl hq

theorem ua_childCBs_aux (k : Nat) : ∀ (f : Forest) (p q : Path), p.length ≤ k →
    (¬(q <+: p) ∨ q = p) → childCBs (updateAncestorCheckboxes f p) q = childCBs f q := by
  induction k with
  | zero => intro f p q hk _; rw [ua_base f p (by omega)]
  | succ k ih =>
    intro f p q hk hq
    by_cases h2 : p.length ≤ 1
    · rw [ua_base f p h2]
    · have hpne : p ≠ [] := by intro hx; rw [hx] at h2; simp at h2
      rw [ua_step f p (by omega)]
      have hlen : p.dropLast.length ≤ k := by rw [List.length_dropLast]; omega
      have hp'p : p.dropLast <+: p := pfx_dropLast_self hpne
      have hp'ne : p.dropLast ≠ [] := by
        have := List.length_dropLast p
        intro hx
        rw [hx] at this
        simp at this
        omega
      have hnext : ¬(q <+: p.dropLast) ∨ q = p.dropLast := by
        rcases hq with hq | hq
        · exact Or.inl fun hx => hq (hx.trans hp'p)
        · subst hq
          refine Or.inl fun hx => ?_
          have := hx.length_le
          rw [List.length_dropLast] at this
          omega
      rw [ih _ _ _ hlen hnext]
      refine childCBs_modifyF_cbonly f _ updateParentState_children
        (fun m => by rw [updateParentState_children]) ?_
      intro hx
      rcases hq with hq | hq
      · exact hq (hx ▸ ((pfx_dropLast_self hp'ne).trans hp'p))
      · subst hq
        have hcl := congrArg List.length hx
        rw [List.length_dropLast, List.length_dropLast] at hcl
        omega

theorem ua_childCBs (f : Forest) {p q : Path} (hq : ¬(q <+: p) ∨ q = p) :
    childCBs (updateAncestorCheckboxes f p) q = childCBs f q :=
  ua_childCBs_aux p.length f p q le_rfl hq

theorem ua_consAt_aux (k : Nat) : ∀ (f : Forest) (p q : Path), p.length ≤ k →
    (∃ n, getF f p = some n) → q <+: p → q ≠ p → q ≠ [] →
    ConsAt (updateAncestorCheckboxes f p) q := by
  induction k with
  | zero =>
    intro f p q hk _ hq hne _
    have h1 := hq.length_le
    have h2 : q.length ≠ p.length := fun hx => hne (hq.eq_of_length hx)
    omega
  | succ k ih =>
    intro f p q hk hsome hq hne hnil
    by_cases h2 : p.length ≤ 1
    · have h3 := hq.length_le
      have h4 : q.length ≠ p.length := fun hx => hne (hq.eq_of_length hx)
      have h5 : q.length = 0 := by omega
      exact absurd (List.length_eq_zero.mp h5) hnil
    · have hpne : p ≠ [] := by intro hx; rw [hx] at h2; simp at h2
      rw [ua_step f p (by omega)]
      have hlen : p.dropLast.length ≤ k := by rw [List.length_dropLast]; omega
      have hqp' : q <+: p.dropLast := pfx_dropLast hq hne
      have hp'ne : p.dropLast ≠ [] := by
        have := List.length_dropLast p
        intro hx
        rw [hx] at this
        simp at this
        omega
      obtain ⟨n0, hn0⟩ := hsome
      obtain ⟨m, hm⟩ := getF_some_of_pfx hn0 (pfx_dropLast_self hpne) hp'ne
      have hsome' : ∃ m2, getF (modifyF f p.dropLast updateParentState) p.dropLast = some m2 := by
        refine ⟨updateParentState m, ?_⟩
        rw [getF_modifyF_self f updateParentState hp'ne, hm]
        rfl
      by_cases hqd : q = p.dropLast
      · have hf' : getF (modifyF f p.dropLast updateParentState) p.dropLast =
            some (updateParentState m) := by
          rw [getF_modifyF_self f updateParentState hp'ne, hm]
          rfl
        have hcons : ConsAt (modifyF f p.dropLast updateParentState) p.dropLast := by
          intro n hn hne2
          rw [hf'] at hn
          cases hn
          exact updateParentState_consistent m hne2
        rw [hqd]
        exact consAt_transfer (ua_getCB _ (Or.inr rfl)) (ua_childCBs _ (Or.inr rfl)) hcons
      · exact ih _ _ _ hlen hsome' hqp' hqd hnil

theorem ua_consAt (f : Forest) (p : Path) (hsome : ∃ n, getF f p = some n)
    {q : Path} (hq : q <+: p) (hne : q ≠ p) (hnil : q ≠ []) :
    ConsAt (updateAncestorCheckboxes f p) q :=
  ua_consAt_aux p.length f p q le_rfl hsome hq hne hnil

end Tristate

namespace Tristate

theorem childLen_foldl_modify (ps : List Path) (f : Forest) (q : Path) :
    (getF (ps.foldl (fun g r => modifyF g r updateParentState) f) q).map
        (fun n => n.children.length) =
      (getF f q).map fun n => n.children.length := by
  induction ps generalizing f with
  | nil => rfl
  | cons r ps ih =>
    rw [List.foldl_cons, ih]
    exact childLen_modifyF_cbonly f updateParentState updateParentState_children r q

theorem foldl_modify_consAt (ps : List Path) (f : Forest)
    (hsort : ps.Pairwise fun a b => b.length ≤ a.length) {q : Path} (hq : q ∈ ps) :
    ConsAt (ps.foldl (fun g r => modifyF g r updateParentState) f) q := by
  induction ps using List.reverseRecOn generalizing f with
  | nil => simp at hq
  | append_singleton ps r ih =>
    rw [List.foldl_append, List.foldl_cons, List.foldl_nil]
    rcases List.pairwise_append.mp hsort with ⟨hps, _, hcross⟩
    have hstep : ∀ (H : Forest), ConsAt (modifyF H r updateParentState) r := by
      intro H n hn hne
      cases hr : r with
      | nil => rw [hr] at hn; simp [getF] at hn
      | cons a as =>
        rw [getF_modifyF_self H updateParentState (by simp [hr])] at hn
        cases hx : getF H r with
        | none => rw [hx] at hn; exact absurd hn (by simp)
        | some m =>
          rw [hx] at hn
          have hnm : n = updateParentState m := by simpa using hn.symm
          rw [hnm]
          exact updateParentState_consistent m (hnm ▸ hne)
    rcases List.mem_append.mp hq with hq | hq
    · by_cases hqr : q = r
      · rw [hqr]
        exact hstep _
      · have hcons : ConsAt (ps.foldl (fun g r => modifyF g r updateParentState) f) q :=
          ih f hps hq
        by_cases hrnil : r = []
        · rw [hrnil]
          exact hcons
        · refine consAt_transfer ?_ ?_ hcons
          · exact getCB_modifyF_cbonly_ne _ _ updateParentState_children hqr
          · refine childCBs_modifyF_cbonly _ _ updateParentState_children
              (fun m => by rw [updateParentState_children]) ?_
            intro hx
            have hrq : r.length ≤ q.length := hcross q hq r (by simp)
            have hlq := congrArg List.length hx
            rw [List.length_dropLast] at hlq
            have hrpos : 0 < r.length := List.length_pos.mpr hrnil
            omega
    · have hqr : q = r := by simpa using hq
      rw [hqr]
      exact hstep _

theorem foldl_modify_id (ps : List Path) (f : Forest) (hcons : Consistent f) :
    ps.foldl (fun g r => modifyF g r updateParentState) f = f := by
  induction ps with
  | nil => rfl
  | cons r ps ih =>
    rw [List.foldl_cons, modifyF_id f r updateParentState
      fun m hm => updateParentState_id m (hcons r m hm)]
    exact ih

theorem mem_iPL (cs : List Node) (k i : Nat) (r : Path) (m : Node)
    (hm : idx? cs i = some m) (hr : r ∈ internalPathsN m) : (k + i) :: r ∈ iPL k cs := by
  induction cs generalizing k i with
  | nil => cases i <;> simp [idx?] at hm
  | cons n ns ih =>
    rw [iPL]
    cases i with
    | zero =>
      rw [show idx? (n :: ns) 0 = some n from rfl] at hm
      cases hm
      exact List.mem_append.mpr (Or.inl (List.mem_map.mpr ⟨r, hr, by simp⟩))
    | succ i =>
      refine List.mem_append.mpr (Or.inr ?_)
      have hrec := ih (k + 1) i (by simpa [idx?] using hm)
      rw [show k + (i + 1) = k + 1 + i from by omega]
      exact hrec

theorem internalPathsN_complete (n : Node) (r : Path) (m : Node)
    (hm : n.getPath r = some m) (hne : m.children ≠ []) : r ∈ internalPathsN n := by
  induction r generalizing n with
  | nil =>
    cases n with
    | mk c cs =>
      rw [show Node.getPath (Node.mk c cs) [] = some (Node.mk c cs) from rfl] at hm
      cases hm
      rw [internalPathsN]
      have hcs : cs.isEmpty = false := by
        simpa [Node.children] using hne
      rw [hcs]
      simp
  | cons i is ih =>
    rw [Node.getPath_cons] at hm
    cases hx : idx? n.children i with
    | none => rw [hx] at hm; exact absurd hm (by simp)
    | some c =>
      rw [hx] at hm
      have hrec := ih c (by simpa using hm)
      cases n with
      | mk cb cs =>
        rw [internalPathsN]
        refine List.mem_append.mpr (Or.inr ?_)
        have hmem := mem_iPL cs 0 i is c (by simpa [Node.children] using hx) hrec
        simpa using hmem

theorem internalPaths_complete (f : Forest) (q : Path) (n : Node)
    (hn : getF f q = some n) (hne : n.children ≠ []) : q ∈ internalPaths f := by
  cases q with
  | nil => simp [getF] at hn
  | cons i is =>
    rw [getF_cons] at hn
    cases hx : idx? f i with
    | none => rw [hx] at hn; exact absurd hn (by simp)
    | some m =>
      rw [hx] at hn
      rw [internalPaths]
      have hmem := mem_iPL f 0 i is m hx (internalPathsN_complete m is n (by simpa using hn) hne)
      simpa using hmem

theorem maxLen_cons (a : Path) (l : List Path) : maxLen (a :: l) = max a.length (maxLen l) := rfl

theorem le_maxLen (ps : List Path) (q : Path) (h : q ∈ ps) : q.length ≤ maxLen ps := by
  induction ps with
  | nil => simp at h
  | cons a l ih =>
    rw [maxLen_cons]
    rcases List.mem_cons.mp h with rfl | h
    · exact le_max_left _ _
    · exact le_trans (ih h) (le_max_right _ _)

theorem mem_descRange (d k : Nat) : d ∈ descRange k ↔ d < k := by
  induction k with
  | zero => simp [descRange]
  | succ k ih =>
    rw [descRange]
    simp only [List.mem_cons, ih]
    omega

theorem mem_byDepthDesc (ps : List Path) (q : Path) (h : q ∈ ps) : q ∈ byDepthDesc ps := by
  rw [byDepthDesc]
  refine List.mem_flatMap.mpr ⟨q.length, ?_, ?_⟩
  · exact (mem_descRange _ _).mpr (by have := le_maxLen ps q h; omega)
  · exact List.mem_filter.mpr ⟨h, by simp⟩

theorem byDepthDesc_sorted (ps : List Path) :
    (byDepthDesc ps).Pairwise fun a b => b.length ≤ a.length := by
  rw [byDepthDesc]
  generalize maxLen ps + 1 = K
  induction K with
  | zero => simp [descRange]
  | succ k ih =>
    rw [descRange, List.flatMap_cons]
    refine List.pairwise_append.mpr ⟨?_, ih, ?_⟩
    · refine List.pairwise_of_forall_mem_list ?_
      intro a ha b hb
      have h1 : a.length = k := by simpa using (List.mem_filter.mp ha).2
      have h2 : b.length = k := by simpa using (List.mem_filter.mp hb).2
      omega
    · intro a ha b hb
      have h1 : a.length = k := by simpa using (List.mem_filter.mp ha).2
      obtain ⟨d, hd, hbf⟩ := List.mem_flatMap.mp hb
      have h2 : b.length = d := by simpa using (List.mem_filter.mp hbf).2
      have h3 : d < k := (mem_descRange _ _).mp hd
      omega

theorem initializeState_consistent (f : Forest) : Consistent (initializeState f) := by
  intro q n hn hne
  have hlen := childLen_foldl_modify (byDepthDesc (internalPaths f)) f q
  rw [show (byDepthDesc (internalPaths f)).foldl (fun g r => modifyF g r updateParentState) f =
    initializeState f from rfl] at hlen
  rw [hn] at hlen
  cases hx : getF f q with
  | none => rw [hx] at hlen; simp at hlen
  | some m =>
    rw [hx] at hlen
    have hmne : m.children ≠ [] := by
      intro hy
      have hml : n.children.length = m.children.length := by simpa using hlen
      rw [hy] at hml
      simp at hml
      exact hne hml
    have hmem : q ∈ byDepthDesc (internalPaths f) :=
      mem_byDepthDesc _ _ (internalPaths_complete f q m hx hmne)
    exact foldl_modify_consAt _ f (byDepthDesc_sorted _) hmem n hn hne

end Tristate

namespace Tristate

theorem getF_ne_nil {f : Forest} {p : Path} {n : Node} (h : getF f p = some n) : p ≠ [] := by
  intro hx
  rw [hx] at h
  simp [getF] at h

theorem getCB_modifyF_self_cbpres (f : Forest) (g : Node → Node)
    (hg : ∀ m, (g m).cb = m.cb) (p : Path) :
    getCB (modifyF f p g) p = getCB f p := by
  cases hp : p with
  | nil => rfl
  | cons i is =>
    rw [← hp]
    unfold getCB
    rw [getF_modifyF_self f g (by simp [hp])]
    cases getF f p with
    | none => rfl
    | some n => simp [hg]

theorem mem_forceAllL (v : Bool) (l : List Node) (c : Node) (h : c ∈ forceAllL v l) :
    ∃ x, c = forceAll v x := by
  induction l with
  | nil => rw [forceAllL] at h; simp at h
  | cons n ns ih =>
    rw [forceAllL] at h
    rcases List.mem_cons.mp h with rfl | h
    · exact ⟨n, rfl⟩
    · exact ih h

theorem forceAll_consAt (v : Bool) (n0 : Node) (hne : (forceAll v n0).children ≠ []) :
    (forceAll v n0).cb =
      updateParentCB (forceAll v n0).cb ((forceAll v n0).children.map Node.cb) := by
  rw [forceAll_cb]
  refine (updateParentCB_all_same _ v _ (by simpa using hne) ?_).symm
  intro x hx
  obtain ⟨c, hc, rfl⟩ := List.mem_map.mp hx
  rw [forceAll_children] at hc
  obtain ⟨y, rfl⟩ := mem_forceAllL v _ c hc
  exact forceAll_cb v y

theorem setChild_of_forced (v : Bool) (cs : List Node) :
    setChildCheckboxes v (Node.mk ⟨v, false⟩ cs) = forceAll v (Node.mk (⟨v, false⟩ : CB) cs) := by
  rw [forceAll, setChildCheckboxes]
  rfl

theorem userSetChecked_getF (f : Forest) {p : Path} {n : Node} (hn : getF f p = some n)
    (v : Bool) : getF (userSetChecked f p v) p = some (Node.mk ⟨v, false⟩ n.children) := by
  rw [userSetChecked, getF_modifyF_self f _ (getF_ne_nil hn), hn]
  rfl

theorem onToggle_eq (f : Forest) {p : Path} {n : Node} (v : Bool) (hn : getF f p = some n) :
    onToggle f p v =
      updateAncestorCheckboxes (modifyF (userSetChecked f p v) p (setChildCheckboxes v)) p := by
  rw [onToggle, changeHandler, userSetChecked_getF f hn v]
  rfl

theorem onToggle_downPhase_getF (f : Forest) {p : Path} {n : Node} (v : Bool)
    (hn : getF f p = some n) :
    getF (modifyF (userSetChecked f p v) p (setChildCheckboxes v)) p =
      some (forceAll v (Node.mk (⟨v, false⟩ : CB) n.children)) := by
  rw [getF_modifyF_self _ _ (getF_ne_nil hn), userSetChecked_getF f hn v, ← setChild_of_forced]
  rfl

theorem onToggle_getF_below (f : Forest) {p : Path} {n : Node} (v : Bool)
    (hn : getF f p = some n) (r : Path) :
    getF (onToggle f p v) (p ++ r) =
      (forceAll v (Node.mk (⟨v, false⟩ : CB) n.children)).getPath r := by
  rw [onToggle_eq f v hn, ua_getF_below _ ⟨r, rfl⟩,
    getF_modifyF_append _ _ _ (getF_ne_nil hn), userSetChecked_getF f hn v]
  rw [show ((some (Node.mk (⟨v, false⟩ : CB) n.children)).bind fun m =>
      (setChildCheckboxes v m).getPath r) =
    (setChildCheckboxes v (Node.mk (⟨v, false⟩ : CB) n.children)).getPath r from rfl]
  rw [setChild_of_forced]

theorem ac_base (p : Path) (h : p.length ≤ 1) : ancestorChain p = [] := by
  rw [ancestorChain]
  cases p with
  | nil => rfl
  | cons i is =>
    cases is with
    | nil => rfl
    | cons j js => simp at h

theorem ac_step (p : Path) (h : 2 ≤ p.length) :
    ancestorChain p = p.dropLast :: ancestorChain p.dropLast := by
  rw [ancestorChain, ancestorChain]
  obtain ⟨k, hk⟩ : ∃ k, p.length = k + 1 := ⟨p.length - 1, by omega⟩
  rw [hk, acGo, if_neg (by omega), List.length_dropLast, hk]
  rfl

theorem ua_foldl_aux (k : Nat) : ∀ (f : Forest) (p : Path), p.length ≤ k →
    updateAncestorCheckboxes f p =
      (ancestorChain p).foldl (fun g q => modifyF g q updateParentState) f := by
  induction k with
  | zero =>
    intro f p hk
    rw [ua_base f p (by omega), ac_base p (by omega)]
    rfl
  | succ k ih =>
    intro f p hk
    by_cases h2 : p.length ≤ 1
    · rw [ua_base f p h2, ac_base p h2]
      rfl
    · rw [ua_step f p (by omega), ac_step p (by omega), List.foldl_cons]
      exact ih _ _ (by rw [List.length_dropLast]; omega)

theorem ua_foldl (f : Forest) (p : Path) :
    updateAncestorCheckboxes f p =
      (ancestorChain p).foldl (fun g q => modifyF g q updateParentState) f :=
  ua_foldl_aux p.length f p le_rfl

theorem ancestorChain_closed_aux (k : Nat) : ∀ (p : Path), p.length ≤ k →
    ancestorChain p = (List.range (p.length - 1)).map fun j => p.take (p.length - 1 - j) := by
  induction k with
  | zero =>
    intro p hk
    rw [ac_base p (by omega), show p.length - 1 = 0 from by omega]
    rfl
  | succ k ih =>
    intro p hk
    by_cases h2 : p.length ≤ 1
    · rw [ac_base p h2, show p.length - 1 = 0 from by omega]
      rfl
    · rw [ac_step p (by omega), ih p.dropLast (by rw [List.length_dropLast]; omega)]
      rw [List.length_dropLast]
      obtain ⟨m, hm⟩ : ∃ m, p.length = m + 2 := ⟨p.length - 2, by omega⟩
      rw [hm, show m + 2 - 1 = m + 1 from by omega, show m + 1 - 1 = m from by omega]
      rw [List.range_succ_eq_map, List.map_cons, List.map_map]
      have hdl : p.dropLast = p.take (m + 1) := by
        rw [List.dropLast_eq_take, hm]
        rfl
      refine congrArg₂ _ ?_ ?_
      · simpa using hdl
      · refine List.map_congr_left ?_
        intro j hj
        have hjm : j < m := List.mem_range.mp hj
        simp only [Function.comp_apply]
        rw [hdl, List.take_take]
        congr 1
        omega

end Tristate

namespace Tristate

/-- Mutual exclusion of checked and indeterminate over one subtree. -/
def SafeN (n : Node) : Prop :=
  ∀ r m, n.getPath r = some m → SafeCB m.cb

theorem safeN_self {n : Node} (h : SafeN n) : SafeCB n.cb := by
  refine h [] n ?_
  cases n
  rfl

theorem safeN_child {n : Node} (h : SafeN n) {i : Nat} {m : Node}
    (hm : idx? n.children i = some m) : SafeN m := by
  intro r m' hm'
  refine h (i :: r) m' ?_
  rw [Node.getPath_cons, hm]
  exact hm'

theorem safeCB_updateParentCB (c : CB) (cs : List CB) (hc : SafeCB c) :
    SafeCB (updateParentCB c cs) := by
  rw [updateParentCB]
  by_cases h0 : cs.isEmpty
  · rw [if_pos h0]
    exact hc
  · rw [if_neg h0]
    by_cases h1 : 0 < (tally cs).2 ∨ (0 < (tally cs).1 ∧ (tally cs).1 < cs.length)
    · rw [if_pos h1]
      simp [SafeCB]
    · rw [if_neg h1]
      by_cases h2 : (tally cs).1 = cs.length
      · rw [if_pos h2]
        simp [SafeCB]
      · rw [if_neg h2]
        simp [SafeCB]

theorem safeN_updateParentState {n : Node} (h : SafeN n) : SafeN (updateParentState n) := by
  intro r m hm
  cases r with
  | nil =>
    have hcb : (updateParentState n).getPath [] = some (updateParentState n) := by
      cases hu : updateParentState n
      rfl
    rw [hcb] at hm
    cases hm
    rw [updateParentState]
    by_cases h0 : (findChildCheckboxes n).isEmpty
    · rw [if_pos h0]
      exact safeN_self h
    · rw [if_neg h0]
      exact safeCB_updateParentCB _ _ (safeN_self h)
  | cons i is =>
    rw [Node.getPath_cons, updateParentState_children] at hm
    cases hx : idx? n.children i with
    | none => rw [hx] at hm; exact absurd hm (by simp)
    | some c =>
      rw [hx] at hm
      exact safeN_child h hx is m (by simpa using hm)

theorem safeN_forceAll (v : Bool) (n : Node) : SafeN (forceAll v n) := by
  intro r m hm
  obtain ⟨n0, rfl⟩ := forceAll_getPath v n r m hm
  rw [forceAll_cb]
  simp [SafeCB]

theorem safeN_setChildCheckboxes (v : Bool) {n : Node} (h : SafeN n) :
    SafeN (setChildCheckboxes v n) := by
  intro r m hm
  cases r with
  | nil =>
    have hcb : (setChildCheckboxes v n).getPath [] = some (setChildCheckboxes v n) := rfl
    rw [hcb] at hm
    cases hm
    have hs := safeN_self h
    exact hs
  | cons i is =>
    rw [Node.getPath_cons] at hm
    rw [show (setChildCheckboxes v n).children = forceAllL v n.children from rfl] at hm
    rw [idx?_forceAllL] at hm
    cases hx : idx? n.children i with
    | none => rw [hx] at hm; exact absurd hm (by simp)
    | some c =>
      rw [hx] at hm
      exact safeN_forceAll v c is m (by simpa using hm)

theorem safeN_userSet (v : Bool) {n : Node} (h : SafeN n) :
    SafeN (Node.mk ⟨v, false⟩ n.children) := by
  intro r m hm
  cases r with
  | nil =>
    rw [show (Node.mk (⟨v, false⟩ : CB) n.children).getPath [] =
      some (Node.mk ⟨v, false⟩ n.children) from rfl] at hm
    cases hm
    simp [Node.cb, SafeCB]
  | cons i is =>
    rw [Node.getPath_cons] at hm
    rw [show (Node.mk (⟨v, false⟩ : CB) n.children).children = n.children from rfl] at hm
    cases hx : idx? n.children i with
    | none => rw [hx] at hm; exact absurd hm (by simp)
    | some c =>
      rw [hx] at hm
      exact safeN_child h hx is m (by simpa using hm)

theorem safeN_modifyPath {n : Node} (p : Path) (g : Node → Node) (hn : SafeN n)
    (hg : ∀ m, SafeN m → SafeN (g m)) : SafeN (n.modifyPath g p) := by
  induction p generalizing n with
  | nil =>
    cases n with
    | mk c cs => exact hg _ hn
  | cons i is ih =>
    cases n with
    | mk c cs =>
      rw [Node.modifyPath]
      intro r m hm
      cases r with
      | nil =>
        rw [show (Node.mk c (modifyIdx (fun m => m.modifyPath g is) i cs)).getPath [] =
          some (Node.mk c (modifyIdx (fun m => m.modifyPath g is) i cs)) from rfl] at hm
        cases hm
        have hs := safeN_self hn
        exact hs
      | cons j js =>
        rw [Node.getPath_cons] at hm
        rw [show (Node.mk c (modifyIdx (fun m => m.modifyPath g is) i cs)).children =
          modifyIdx (fun m => m.modifyPath g is) i cs from rfl] at hm
        by_cases hij : i = j
        · subst hij
          rw [idx?_modifyIdx_self] at hm
          cases hx : idx? cs i with
          | none => rw [hx] at hm; exact absurd hm (by simp)
          | some c2 =>
            rw [hx] at hm
            have hc2 : SafeN c2 := safeN_child hn (by simpa [Node.children] using hx)
            exact ih hc2 js m (by simpa using hm)
        · rw [idx?_modifyIdx_ne _ _ hij] at hm
          cases hx : idx? cs j with
          | none => rw [hx] at hm; exact absurd hm (by simp)
          | some c2 =>
            rw [hx] at hm
            exact safeN_child hn (by simpa [Node.children] using hx) js m (by simpa using hm)

theorem safeF_top {f : Forest} (h : SafeF f) {i : Nat} {n : Node}
    (hn : idx? f i = some n) : SafeN n := by
  intro r m hm
  refine h (i :: r) m ?_
  rw [getF_cons, hn]
  exact hm

theorem safeF_modifyF {f : Forest} (p : Path) (g : Node → Node) (hf : SafeF f)
    (hg : ∀ m, SafeN m → SafeN (g m)) : SafeF (modifyF f p g) := by
  cases p with
  | nil => exact hf
  | cons i is =>
    intro q m hm
    cases q with
    | nil => simp [getF] at hm
    | cons j js =>
      rw [modifyF_cons, getF_cons] at hm
      by_cases hij : i = j
      · subst hij
        rw [idx?_modifyIdx_self] at hm
        cases hx : idx? f i with
        | none => rw [hx] at hm; exact absurd hm (by simp)
        | some n =>
          rw [hx] at hm
          exact safeN_modifyPath is g (safeF_top hf hx) hg js m (by simpa using hm)
      · rw [idx?_modifyIdx_ne _ _ hij] at hm
        cases hx : idx? f j with
        | none => rw [hx] at hm; exact absurd hm (by simp)
        | some n =>
          rw [hx] at hm
          exact safeF_top hf hx js m (by simpa using hm)

theorem safeF_ua_aux (k : Nat) : ∀ (f : Forest) (p : Path), p.length ≤ k → SafeF f →
    SafeF (updateAncestorCheckboxes f p) := by
  induction k with
  | zero => intro f p hk hf; rw [ua_base f p (by omega)]; exact hf
  | succ k ih =>
    intro f p hk hf
    by_cases h2 : p.length ≤ 1
    · rw [ua_base f p h2]; exact hf
    · rw [ua_step f p (by omega)]
      refine ih _ _ (by rw [List.length_dropLast]; omega) ?_
      exact safeF_modifyF _ _ hf fun m hm => safeN_updateParentState hm

theorem safeF_ua {f : Forest} (p : Path) (hf : SafeF f) :
    SafeF (updateAncestorCheckboxes f p) :=
  safeF_ua_aux p.length f p le_rfl hf

theorem safeF_foldl {ps : List Path} {f : Forest} (hf : SafeF f) :
    SafeF (ps.foldl (fun g r => modifyF g r updateParentState) f) := by
  induction ps generalizing f with
  | nil => exact hf
  | cons r ps ih =>
    rw [List.foldl_cons]
    exact ih (safeF_modifyF _ _ hf fun m hm => safeN_updateParentState hm)

end Tristate

namespace Tristate

theorem ancestorChain_closed (p : Path) :
    ancestorChain p = (List.range (p.length - 1)).map fun j => p.take (p.length - 1 - j) :=
  ancestorChain_closed_aux p.length p le_rfl

/-- Unchecked, determinate checkbox state used by the concrete examples. -/
def demoOff : CB := ⟨false, false⟩

/-- Concrete root container: one parent item with two unchecked leaf children. -/
def demoA : Forest := [.mk demoOff [.mk demoOff [], .mk demoOff []]]

/-- Top item of demoA. -/
def demoA0 : Node := .mk demoOff [.mk demoOff [], .mk demoOff []]

/-- Leaf carrying a checked, determinate state. -/
def demoLeafOn : Node := .mk ⟨true, false⟩ []

/-- Node with one checked and one unchecked child, for the parent-state rule. -/
def demoMix : Node := .mk demoOff [.mk ⟨true, false⟩ [], .mk demoOff []]

/-- C1: after a recomputation of a node's state from its non-empty list of
immediate child checkboxes (_updateParentState over _findChildCheckboxes,
used during initialization and upward propagation), the node is checked iff
every immediate child is checked and none is indeterminate; it is
indeterminate iff some immediate child is indeterminate or the checked
immediate children form a non-empty proper subset of the children; otherwise
it is unchecked and not indeterminate. -/
theorem claim1_parent_from_children (n : Node) (h : findChildCheckboxes n ≠ []) :
    ((updateParentState n).cb.checked = true ↔
      ∀ c ∈ (findChildCheckboxes n).map Node.cb, c.checked = true ∧ c.indeterminate = false)
  ∧ ((updateParentState n).cb.indeterminate = true ↔
      ((∃ c ∈ (findChildCheckboxes n).map Node.cb, c.indeterminate = true) ∨
        (0 < (((findChildCheckboxes n).map Node.cb).filter fun c => c.checked).length ∧
          (((findChildCheckboxes n).map Node.cb).filter fun c => c.checked).length <
            ((findChildCheckboxes n).map Node.cb).length)))
  ∧ ((¬ ∀ c ∈ (findChildCheckboxes n).map Node.cb, c.checked = true ∧ c.indeterminate = false) →
      (¬((∃ c ∈ (findChildCheckboxes n).map Node.cb, c.indeterminate = true) ∨
        (0 < (((findChildCheckboxes n).map Node.cb).filter fun c => c.checked).length ∧
          (((findChildCheckboxes n).map Node.cb).filter fun c => c.checked).length <
            ((findChildCheckboxes n).map Node.cb).length))) →
      (updateParentState n).cb.checked = false ∧ (updateParentState n).cb.indeterminate = false) := by
  have hmapne : (findChildCheckboxes n).map Node.cb ≠ [] := by
    simpa [List.map_eq_nil_iff] using h
  have hcb : (updateParentState n).cb =
      updateParentCB n.cb ((findChildCheckboxes n).map Node.cb) := by
    rw [updateParentState, if_neg (by simpa using h)]
    rfl
  rw [hcb]
  obtain ⟨h1, h2⟩ := updateParentCB_spec n.cb ((findChildCheckboxes n).map Node.cb) hmapne
  refine ⟨h1, h2, ?_⟩
  · intro hA hB
    constructor
    · cases hcc : (updateParentCB n.cb ((findChildCheckboxes n).map Node.cb)).checked with
      | false => rfl
      | true => exact absurd (h1.mp hcc) hA
    · cases hcc : (updateParentCB n.cb ((findChildCheckboxes n).map Node.cb)).indeterminate with
      | false => rfl
      | true =>
        refine absurd (h2.mp hcc) ?_
        rintro (hx | ⟨ha, hb⟩)
        · exact hB (Or.inl hx)
        · exact hB (Or.inr ⟨ha, hb⟩)

/-- Witness for C1 at a node with one checked and one unchecked child. -/
theorem claim1_witness :
    findChildCheckboxes demoMix ≠ [] ∧
      (((updateParentState demoMix).cb.checked = true ↔
        ∀ c ∈ (findChildCheckboxes demoMix).map Node.cb,
          c.checked = true ∧ c.indeterminate = false)
      ∧ ((updateParentState demoMix).cb.indeterminate = true ↔
          ((∃ c ∈ (findChildCheckboxes demoMix).map Node.cb, c.indeterminate = true) ∨
            (0 < (((findChildCheckboxes demoMix).map Node.cb).filter fun c => c.checked).length ∧
              (((findChildCheckboxes demoMix).map Node.cb).filter fun c => c.checked).length <
                ((findChildCheckboxes demoMix).map Node.cb).length)))
      ∧ ((¬ ∀ c ∈ (findChildCheckboxes demoMix).map Node.cb,
            c.checked = true ∧ c.indeterminate = false) →
          (¬((∃ c ∈ (findChildCheckboxes demoMix).map Node.cb, c.indeterminate = true) ∨
            (0 < (((findChildCheckboxes demoMix).map Node.cb).filter fun c => c.checked).length ∧
              (((findChildCheckboxes demoMix).map Node.cb).filter fun c => c.checked).length <
                ((findChildCheckboxes demoMix).map Node.cb).length))) →
          (updateParentState demoMix).cb.checked = false ∧
            (updateParentState demoMix).cb.indeterminate = false)) :=
  ⟨by simp [findChildCheckboxes, demoMix, Node.children],
    claim1_parent_from_children demoMix
      (by simp [findChildCheckboxes, demoMix, Node.children])⟩

/-- C2: after onToggle at an address whose checkbox the user set to v, every
descendant at any depth below that address is checked exactly when v and is
not indeterminate (_setChildCheckboxes runs over the whole subtree). -/
theorem claim2_downward_force (f : Forest) (p : Path) (n : Node) (v : Bool)
    (hn : getF f p = some n) (r : Path) (_hr : r ≠ []) (d : Node)
    (hd : getF (onToggle f p v) (p ++ r) = some d) :
    d.cb.checked = v ∧ d.cb.indeterminate = false := by
  rw [onToggle_getF_below f v hn r] at hd
  obtain ⟨n0, rfl⟩ := forceAll_getPath v _ r d hd
  rw [forceAll_cb]
  exact ⟨rfl, rfl⟩

/-- Witness for C2: toggling the demo parent to true forces its second child. -/
theorem claim2_witness :
    getF demoA [0] = some demoA0 ∧ (([1] : Path) ≠ []) ∧
      (demoLeafOn.cb.checked = true ∧ demoLeafOn.cb.indeterminate = false) :=
  ⟨rfl, by decide,
    claim2_downward_force demoA [0] demoA0 true rfl [1] (by decide) demoLeafOn rfl⟩

/-- C4: initialization possesses the depth-ordered enumeration the
specification describes and produces a globally consistent container: the
processed address list is sorted by descending depth, contains every
grouping node's address, initializeState is exactly the fold of the
parent-state recomputation over that list, and afterwards every non-leaf
node satisfies the parent-from-children rule. -/
theorem claim4_initialization (f : Forest) :
    ((byDepthDesc (internalPaths f)).Pairwise fun a b => b.length ≤ a.length)
  ∧ (∀ q n, getF f q = some n → n.children ≠ [] → q ∈ byDepthDesc (internalPaths f))
  ∧ initializeState f =
      (byDepthDesc (internalPaths f)).foldl (fun g q => modifyF g q updateParentState) f
  ∧ Consistent (initializeState f) :=
  ⟨byDepthDesc_sorted _,
    fun q n hn hne => mem_byDepthDesc _ _ (internalPaths_complete f q n hn hne),
    rfl,
    initializeState_consistent f⟩

/-- C7: when the constructor's argument resolves to zero containers, the
instance is inert: the root set is empty, the handler map is never created
(no handler registration, no initialization), and the error is reported;
construct is a total function, so no exception propagates. -/
theorem claim7_zero_containers (sel : SelectorArg) (h : getElements sel = []) :
    construct sel = { roots := [], handlers := none, errorReported := true } := by
  simp [construct, h]

/-- Witness for C7 at a selector string matching nothing. -/
theorem claim7_witness :
    getElements (SelectorArg.str []) = [] ∧
      construct (SelectorArg.str []) =
        { roots := [], handlers := none, errorReported := true } :=
  ⟨rfl, claim7_zero_containers (SelectorArg.str []) rfl⟩

/-- C9: running the bottom-up initialization twice in succession on an
unchanged structure yields exactly the states of the first run. -/
theorem claim9_init_idempotent (f : Forest) :
    initializeState (initializeState f) = initializeState f :=
  foldl_modify_id _ _ (initializeState_consistent f)

/-- C10: the propagation triggered by the change handler mutates at most the
strict descendants and strict ancestors of the toggled address: the toggled
node's own two flags and every node neither below nor above it keep their
values. -/
theorem claim10_frame (f : Forest) (p q : Path)
    (h1 : ¬(p <+: q) ∨ q = p) (h2 : ¬(q <+: p) ∨ q = p) :
    getCB (changeHandler f p) q = getCB f q := by
  cases hx : getF f p with
  | none => simp only [changeHandler, hx]
  | some n =>
    simp only [changeHandler, hx]
    rw [ua_getCB _ h2]
    by_cases hqp : q = p
    · rw [hqp]
      exact getCB_modifyF_self_cbpres f (setChildCheckboxes n.cb.checked) (fun m => rfl) p
    · rcases h1 with h1 | h1
      · rcases h2 with h2 | h2
        · unfold getCB
          rw [getF_modifyF_off f _ h1 h2]
        · exact absurd h2 hqp
      · exact absurd h1 hqp

/-- Witness for C10 at a sibling of the toggled node. -/
theorem claim10_witness :
    (¬(([0, 0] : Path) <+: [0, 1]) ∨ ([0, 1] : Path) = [0, 0]) ∧
      (¬(([0, 1] : Path) <+: [0, 0]) ∨ ([0, 1] : Path) = [0, 0]) ∧
      getCB (changeHandler demoA [0, 0]) [0, 1] = getCB demoA [0, 1] :=
  ⟨by decide, by decide, claim10_frame demoA [0, 0] [0, 1] (by decide) (by decide)⟩

end Tristate

namespace Tristate

/-- C3: a single onToggle on a globally consistent container leaves the
container globally consistent again: every node with a non-empty child list,
the toggled node and its ancestors included, satisfies the
parent-from-children rule with respect to its immediate children's
post-toggle states, with no further passes. -/
theorem claim3_upward_consistency (f : Forest) (p : Path) (n : Node) (v : Bool)
    (hcons : Consistent f) (hn : getF f p = some n) :
    Consistent (onToggle f p v) := by
  intro q
  have hpn : p ≠ [] := getF_ne_nil hn
  rw [onToggle_eq f v hn]
  by_cases hq0 : q = []
  · subst hq0
    intro n' hn' _
    simp [getF] at hn'
  · by_cases hpq : p <+: q
    · intro n' hn' hne'
      rw [ua_getF_below _ hpq] at hn'
      obtain ⟨r, rfl⟩ := hpq
      rw [getF_modifyF_append _ _ _ hpn, userSetChecked_getF f hn v] at hn'
      rw [show ((some (Node.mk (⟨v, false⟩ : CB) n.children)).bind fun m =>
          (setChildCheckboxes v m).getPath r) =
        (setChildCheckboxes v (Node.mk (⟨v, false⟩ : CB) n.children)).getPath r from rfl] at hn'
      rw [setChild_of_forced] at hn'
      obtain ⟨n0, rfl⟩ := forceAll_getPath v _ r n' hn'
      exact forceAll_consAt v n0 hne'
    · have hne : q ≠ p := fun hx => hpq ⟨[], by rw [hx, List.append_nil]⟩
      by_cases hqp : q <+: p
      · exact ua_consAt _ p ⟨_, onToggle_downPhase_getF f v hn⟩ hqp hne hq0
      · refine consAt_transfer ?_ ?_ (hcons q)
        · rw [ua_getCB _ (Or.inl hqp)]
          unfold getCB
          rw [getF_modifyF_off _ _ hpq hqp, userSetChecked, getF_modifyF_off _ _ hpq hqp]
        · rw [ua_childCBs _ (Or.inl hqp)]
          have hqdl : q ≠ p.dropLast := fun hx => hqp (hx ▸ pfx_dropLast_self hpn)
          rw [childCBs_modifyF_frame _ _ hpq hqdl, userSetChecked,
            childCBs_modifyF_frame _ _ hpq hqdl]

/-- Witness for C3: toggling a leaf of the consistent demo container. -/
theorem claim3_witness :
    Consistent demoA ∧ getF demoA [0, 0] = some (Node.mk demoOff []) ∧
      Consistent (onToggle demoA [0, 0] true) := by
  have h := consistentB_sound demoA (by rfl)
  exact ⟨h, rfl, claim3_upward_consistency demoA [0, 0] (Node.mk demoOff []) true h rfl⟩

/-- C5: for one toggle the downward phase finishes before the upward phase
starts, and the upward phase visits the ancestors in strict bottom-to-top
order, one structural level at a time: onToggle equals the ancestor-wise
fold applied to the container in which the whole subtree has already been
forced, and the visited ancestor list is dropLast, dropLast of that, and so
on down to the top level item. -/
theorem claim5_ordering (f : Forest) (p : Path) (n : Node) (v : Bool)
    (hn : getF f p = some n) :
    onToggle f p v =
      (ancestorChain p).foldl (fun g q => modifyF g q updateParentState)
        (modifyF (userSetChecked f p v) p (setChildCheckboxes v))
  ∧ ancestorChain p = (List.range (p.length - 1)).map fun j => p.take (p.length - 1 - j) :=
  ⟨by rw [onToggle_eq f v hn, ua_foldl], ancestorChain_closed p⟩

/-- Witness for C5 at a depth-two leaf of the demo container. -/
theorem claim5_witness :
    getF demoA [0, 0] = some (Node.mk demoOff []) ∧
      (onToggle demoA [0, 0] true =
          (ancestorChain [0, 0]).foldl (fun g q => modifyF g q updateParentState)
            (modifyF (userSetChecked demoA [0, 0] true) [0, 0] (setChildCheckboxes true))
        ∧ ancestorChain [0, 0] =
            (List.range (([0, 0] : Path).length - 1)).map
              fun j => ([0, 0] : Path).take (([0, 0] : Path).length - 1 - j)) :=
  ⟨rfl, claim5_ordering demoA [0, 0] (Node.mk demoOff []) true rfl⟩

/-- C6: checked and indeterminate stay mutually exclusive: starting from a
container in which no checkbox has both flags set, neither initialization
nor any onToggle (the toggled node included, whose activation clears
indeterminate) produces a node with both flags set. -/
theorem claim6_mutual_exclusion (f : Forest) (hf : SafeF f) :
    SafeF (initializeState f) ∧ ∀ p v, SafeF (onToggle f p v) := by
  constructor
  · exact safeF_foldl hf
  · intro p v
    have h1 : SafeF (userSetChecked f p v) :=
      safeF_modifyF p _ hf fun m hm => safeN_userSet v hm
    rw [onToggle]
    cases hx : getF (userSetChecked f p v) p with
    | none => simp only [changeHandler, hx]; exact h1
    | some m =>
      simp only [changeHandler, hx]
      exact safeF_ua p (safeF_modifyF p _ h1 fun m2 hm2 => safeN_setChildCheckboxes _ hm2)

/-- Witness for C6 on the demo container. -/
theorem claim6_witness :
    SafeF demoA ∧
      (SafeF (initializeState demoA) ∧ ∀ p v, SafeF (onToggle demoA p v)) :=
  ⟨safeB_sound demoA rfl, claim6_mutual_exclusion demoA (safeB_sound demoA rfl)⟩

/-- C8 counterexample: the claim quantifies over every instance, but on an
inert instance (construction resolved zero containers) the constructor
returned before creating the handler map, so the first destroy dereferences
an absent field and throws a TypeError instead of being safe. -/
theorem claim8_counterexample :
    destroy (construct SelectorArg.invalid) = Except.error () := rfl

/-- C8 as amended: for every instance whose construction resolved at least
one root container, destroy succeeds without an exception and empties the
handler registry, a second destroy succeeds with no additional effect, and
after teardown a checkbox change triggers no propagation: only the user's
own flip lands on the tree. -/
theorem claim8_destroy (sel : SelectorArg) (h : getElements sel ≠ []) :
    ∃ inst2,
      destroy (construct sel) = Except.ok inst2
      ∧ inst2.handlers = some []
      ∧ destroy inst2 = Except.ok inst2
      ∧ ∀ i p v, (dispatchChange inst2 i p v).roots =
          modifyIdx (fun r => userSetChecked r p v) i inst2.roots := by
  have hne : (getElements sel).isEmpty = false := by simpa using h
  refine ⟨⟨(getElements sel).map initializeState, some [], false⟩, ?_, rfl, rfl, ?_⟩
  · simp [construct, hne, destroy]
  · intro i p v
    simp [dispatchChange]

/-- Witness for C8's amended claim at a single-container construction. -/
theorem claim8_witness :
    getElements (SelectorArg.element demoA) ≠ [] ∧
      ∃ inst2,
        destroy (construct (SelectorArg.element demoA)) = Except.ok inst2
        ∧ inst2.handlers = some []
        ∧ destroy inst2 = Except.ok inst2
        ∧ ∀ i p v, (dispatchChange inst2 i p v).roots =
            modifyIdx (fun r => userSetChecked r p v) i inst2.roots :=
  ⟨by simp [getElements], claim8_destroy (SelectorArg.element demoA) (by simp [getElements])⟩

end Tristate
